import Mathlib

/-!
Verification of the go-copystd tool (src/main.go, and the unnamed near-duplicate
variant src/unnamed/part_000).  The tool copies Go standard-library internal
packages, together with their restricted dependencies, into a public module,
rewriting directory paths and import literals.

Shallow embedding conventions:
* Go strings are modelled as `List Char` (abbreviated `Str`); string literals
  enter through `chs`.
* `strings.ReplaceAll`, `strings.HasPrefix`, `strings.TrimPrefix`,
  `filepath.Clean`, `filepath.Join` and `filepath.Base` are modelled on Unix
  semantics (`os.PathSeparator = '/'`), following the Go standard library's
  lexical algorithms.
* External effects are oracles: the `go list` subprocess is a
  `ProcResult` value per query string, `os.Stat` is a `Str → StatR` oracle,
  `os.ReadFile` is `Str → Option Str` (`none` = read error), and `writeFile`
  (MkdirAll + imports.Process + os.WriteFile) is a `Str → Str → Str → Option Str`
  oracle returning `some e` on failure.
* The global flags `flagModule`, `flagSrc`, `flagDist` and the computed
  `gorootSrc` are passed as explicit parameters (`m`, `dist`, `S`).
* A Go `panic` is the distinguished `Halt.panicked` outcome, distinct from an
  error return.
-/

/-- Go strings, modelled as lists of characters. -/
abbrev Str := List Char

/-- Embed a Lean string literal as a `Str`. -/
def chs (s : String) : Str := s.data

/-- `strings.Split(s, sep)` for a single-character separator; also the
component decomposition used by `filepath.Clean`. -/
def splitOnChar (sep : Char) : Str → List Str
  | [] => [[]]
  | c :: cs =>
    if c = sep then [] :: splitOnChar sep cs
    else
      match splitOnChar sep cs with
      | [] => [[c]]
      | h :: t => (c :: h) :: t

/-- Join a list of components with `'/'` (the heart of `strings.Join` as used
by `filepath.Join`, and of reassembly in `filepath.Clean`). -/
def interJoin : List Str → Str
  | [] => []
  | [x] => x
  | x :: xs => x ++ '/' :: interJoin xs

/-- The component-stack processing of Go's `filepath.Clean` (Unix): drop empty
and `"."` components, let `".."` pop the previous component (at the root it is
simply dropped; in a relative path it accumulates at the front). -/
def cleanComps (rooted : Bool) : List Str → List Str → List Str
  | stack, [] => stack
  | stack, c :: rest =>
    if c = [] ∨ c = ['.'] then cleanComps rooted stack rest
    else if c = ['.', '.'] then
      if rooted then cleanComps rooted stack.dropLast rest
      else if stack ≠ [] ∧ stack.getLast? ≠ some ['.', '.'] then
        cleanComps rooted stack.dropLast rest
      else cleanComps rooted (stack ++ [c]) rest
    else cleanComps rooted (stack ++ [c]) rest

/-- Go's `filepath.Clean` (Unix), via component processing. -/
def goClean (s : Str) : Str :=
  if s = [] then ['.']
  else
    let rooted := s.head? = some '/'
    let stack := cleanComps rooted [] (splitOnChar '/' s)
    let out := (if rooted then ['/'] else []) ++ interJoin stack
    if out = [] then ['.'] else out

/-- Go's `filepath.Join` (Unix): join the elements from the first non-empty one
with `'/'` and `Clean` the result; all-empty input gives the empty path. -/
def goJoin (elems : List Str) : Str :=
  match elems.dropWhile (fun e => e = []) with
  | [] => []
  | es => goClean (interJoin es)

/-- Fuelled worker for `strings.ReplaceAll`: leftmost, non-overlapping
occurrences of `pat` are replaced by `rep`; replaced text is not rescanned. -/
def replaceAllAux (pat rep : Str) : Nat → Str → Str
  | _, [] => []
  | 0, s => s
  | n + 1, c :: cs =>
    if pat ≠ [] ∧ pat.isPrefixOf (c :: cs) then
      rep ++ replaceAllAux pat rep n ((c :: cs).drop pat.length)
    else c :: replaceAllAux pat rep n cs

/-- `strings.ReplaceAll(s, pat, rep)` for non-empty `pat` (the tool never uses
an empty pattern). -/
def replaceAll (s pat rep : Str) : Str := replaceAllAux pat rep s.length s

/-- `strings.TrimPrefix(s, p)`. -/
def dropPfx (s p : Str) : Str :=
  if p.isPrefixOf s then s.drop p.length else s

/-- Go's `filepath.Base` (Unix): last non-empty path component; `"/"` for a
root-only path and `"."` for an empty one. -/
def baseName (p : Str) : Str :=
  match ((splitOnChar '/' p).filter (fun c => ¬ c = [])).getLast? with
  | some c => c
  | none => if p.head? = some '/' then ['/'] else ['.']

/-- The package descriptor decoded from `go list -json` (only the fields the
tool reads; `err` is the per-package `Error` record reported by `-e`). -/
structure Package where
  dir : Str := []
  importPath : Str := []
  imports : List Str := []
  goFiles : List Str := []
  testGoFiles : List Str := []
  xtestGoFiles : List Str := []
  ignoredGoFiles : List Str := []
  err : Option Str := none
deriving DecidableEq

/-- Run outcome: normal return, error return, or a Go `panic`. -/
inductive Halt
  | ok
  | err (e : Str)
  | panicked (msg : Str)
deriving DecidableEq

/-- Result of `os.Stat`: success, a not-exist error, or another error. -/
inductive StatR
  | okR
  | notExist
  | otherErr
deriving DecidableEq

/-- `sourceFiles`: the four file-role lists joined onto the package dir. -/
def sourceFiles (pkg : Package) : List Str :=
  (pkg.goFiles ++ pkg.testGoFiles ++ pkg.xtestGoFiles ++ pkg.ignoredGoFiles).map
    (fun name => goJoin [pkg.dir, name])

/-- The textual import-literal rewrite performed by `readFile` after a
successful read: six sequential `strings.ReplaceAll` calls, in source order,
with `sep = "/"`; `m` is `flagModule`. -/
def rewriteBody (m : Str) (s : Str) : Str :=
  let s1 := replaceAll s (chs "cmd/asm/internal/") (goJoin [m, chs "asm/"])
  let s2 := replaceAll s1 (chs "cmd/compile/internal/") (goJoin [m, chs "compile/"])
  let s3 := replaceAll s2 (chs "cmd/go/internal/") (goJoin [m, chs "go/"])
  let s4 := replaceAll s3 (chs "cmd/link/internal/") (goJoin [m, chs "link/"])
  let s5 := replaceAll s4 (chs "cmd/internal/") (m ++ ['/'])
  replaceAll s5 (chs "internal/") (m ++ ['/'])

/-- The `(imppath, fixpath)` substitution table of `copyInternal`, written as a
list in source order (the Go source iterates a map, so any order may occur at
run time; order independence is proved below); `S` is `gorootSrc`. -/
def rules (S : Str) : List (Str × Str) :=
  [ (goJoin [S, chs "cmd", chs "asm", chs "internal"], goJoin [S, chs "asm"]),
    (goJoin [S, chs "cmd", chs "compile", chs "internal"], goJoin [S, chs "compile"]),
    (goJoin [S, chs "cmd", chs "go", chs "internal"], goJoin [S, chs "go"]),
    (goJoin [S, chs "cmd", chs "link", chs "internal"], goJoin [S, chs "link"]),
    (goJoin [S, chs "cmd", chs "internal"], goJoin [S]),
    (goJoin [S, chs "internal"], goJoin [S]) ]

/-- Inner loop of `copyInternal` over a rule list: on a prefix match the
destination directory is `TrimPrefix(ReplaceAll(pkg.Dir, imppath, fixpath), S)`
and the file is written there; a write error returns immediately.  Successful
writes are logged as `(dstdir, filename)` pairs. -/
def ruleLoop (S : Str) (writeO : Str → Str → Str → Option Str)
    (dir name body : Str) : List (Str × Str) → List (Str × Str) × Halt
  | [] => ([], Halt.ok)
  | (imppath, fixpath) :: rs =>
    if imppath.isPrefixOf dir then
      let dst := dropPfx (replaceAll dir imppath fixpath) S
      match writeO dst name body with
      | some e => ([], Halt.err e)
      | none =>
        let (ws, h) := ruleLoop S writeO dir name body rs
        ((dst, name) :: ws, h)
    else ruleLoop S writeO dir name body rs

/-- Outer loop of `copyInternal` over the paths of `sourceFiles`: the sentinel
check compares the full joined path against the bare name `"zbootstrap.go"`;
`os.ReadFile` failure is a `panic` inside `readFile`. -/
def fileLoop (S m : Str) (readO : Str → Option Str)
    (writeO : Str → Str → Str → Option Str) (pkgDir : Str) :
    List Str → List (Str × Str) × Halt
  | [] => ([], Halt.ok)
  | path :: rest =>
    if path = chs "zbootstrap.go" then fileLoop S m readO writeO pkgDir rest
    else
      match readO path with
      | none => ([], Halt.panicked path)
      | some raw =>
        let body := rewriteBody m raw
        let name := baseName path
        match ruleLoop S writeO pkgDir name body (rules S) with
        | (ws, Halt.ok) =>
          let (ws2, h2) := fileLoop S m readO writeO pkgDir rest
          (ws ++ ws2, h2)
        | (ws, h) => (ws, h)

/-- `copyInternal(pkg)`: rewrite and write every source file of the package. -/
def copyInternalM (S m : Str) (readO : Str → Option Str)
    (writeO : Str → Str → Str → Option Str) (pkg : Package) :
    List (Str × Str) × Halt :=
  fileLoop S m readO writeO pkg.dir (sourceFiles pkg)

/-- The restricted-import classification in `run`:
`strings.HasPrefix(imp, filepath.Join("cmd", "internal")) ||
 strings.HasPrefix(imp, "internal")`. -/
def restricted (imp : Str) : Bool :=
  (goJoin [chs "cmd", chs "internal"]).isPrefixOf imp || (chs "internal").isPrefixOf imp

/-- The warning printed for a descriptor whose directory does not exist. -/
def warnMsg (d : Str) : Str :=
  chs "[WARN]: " ++ d ++ chs " is not exists, continue"

/-- Outcome of one `go list -json -e` subprocess invocation.
`pipeFail` models `cmd.StdoutPipe()` failing (before the diagnostic buffer or
its attaching `defer` exist), `startFail` models `cmd.Start()` failing (the
process never ran, so the captured diagnostic stream is empty), and `ran`
models a started process: the package records decoded before any decode
error, an optional decode error, an optional non-zero-exit error from
`cmd.Wait()`, and the captured stderr stream. -/
inductive ProcResult
  | pipeFail (e : Str)
  | startFail (e : Str)
  | ran (pkgs : List Package) (decodeErr : Option Str) (exitErr : Option Str) (stderr : Str)

/-- The deferred wrapping `fmt.Errorf("%w\n%s", finalErr, stderrBuf.Bytes())`,
applied only when the captured stream is non-empty. -/
def attachStderr (stderr e : Str) : Str :=
  if stderr = [] then e else e ++ '\n' :: stderr

/-- `listPackages`: error control flow of the resolver call.  Per-package load
errors (the `err` field inside each record) are never inspected. -/
def listPackagesM : ProcResult → Except Str (List Package)
  | ProcResult.pipeFail e => Except.error e
  | ProcResult.startFail e => Except.error e
  | ProcResult.ran pkgs de ee st =>
    match de with
    | some e => Except.error (attachStderr st e)
    | none =>
      match ee with
      | some e => Except.error (attachStderr st e)
      | none => Except.ok pkgs

/-- The resolver as `run` sees it: one subprocess outcome per query string. -/
def resolverOf (proc : Str → ProcResult) : Str → Except Str (List Package) :=
  fun q => listPackagesM (proc q)

/-- The import-edge walk inside `run`'s first loop: restricted imports are
re-resolved and their descriptors appended; other imports are logged as
ignored. -/
def expandImports (res : Str → Except Str (List Package)) :
    List Str → Except Str (List Package × List Str)
  | [] => Except.ok ([], [])
  | imp :: imps =>
    if restricted imp then
      match res imp with
      | Except.error e => Except.error e
      | Except.ok subs =>
        match expandImports res imps with
        | Except.error e => Except.error e
        | Except.ok (ps, igs) => Except.ok (subs ++ ps, igs)
    else
      match expandImports res imps with
      | Except.error e => Except.error e
      | Except.ok (ps, igs) => Except.ok (ps, imp :: igs)

/-- `run`'s first loop over the root query's descriptors: a descriptor whose
directory does not exist is skipped with a warning; otherwise it is appended
and its import edges walked.  Returns (packages, warnings, ignored imports). -/
def expandM (stat : Str → StatR) (res : Str → Except Str (List Package)) :
    List Package → Except Str (List Package × List Str × List Str)
  | [] => Except.ok ([], [], [])
  | p :: rest =>
    if stat p.dir = StatR.notExist then
      match expandM stat res rest with
      | Except.error e => Except.error e
      | Except.ok (ps, ws, igs) => Except.ok (ps, warnMsg p.dir :: ws, igs)
    else
      match expandImports res p.imports with
      | Except.error e => Except.error e
      | Except.ok (subs, igs1) =>
        match expandM stat res rest with
        | Except.error e => Except.error e
        | Except.ok (ps, ws, igs2) => Except.ok (p :: subs ++ ps, ws, igs1 ++ igs2)

/-- Fold of `copyInternal` over the re-resolved descriptors of one package. -/
def copySubs (S m : Str) (readO : Str → Option Str)
    (writeO : Str → Str → Str → Option Str) :
    List Package → List (Str × Str) × Halt
  | [] => ([], Halt.ok)
  | q :: qs =>
    match copyInternalM S m readO writeO q with
    | (ws, Halt.ok) =>
      let (ws2, h2) := copySubs S m readO writeO qs
      (ws ++ ws2, h2)
    | (ws, h) => (ws, h)

/-- `run`'s second loop: for each selected package, compute the destination
directory `Join(flagDist, TrimPrefix(p.Dir, gorootSrc))`, skip the package
when `os.Stat` on it fails with an error other than not-exist, otherwise
re-resolve `p.Dir` and copy every resulting descriptor. -/
def copyPhaseM (S m dist : Str) (readO : Str → Option Str)
    (writeO : Str → Str → Str → Option Str) (stat : Str → StatR)
    (res : Str → Except Str (List Package)) :
    List Package → List (Str × Str) × Halt
  | [] => ([], Halt.ok)
  | p :: ps =>
    if stat (goJoin [dist, dropPfx p.dir S]) = StatR.otherErr then
      copyPhaseM S m dist readO writeO stat res ps
    else
      match res p.dir with
      | Except.error e => ([], Halt.err e)
      | Except.ok subs =>
        match copySubs S m readO writeO subs with
        | (ws, Halt.ok) =>
          let (ws2, h2) := copyPhaseM S m dist readO writeO stat res ps
          (ws ++ ws2, h2)
        | (ws, h) => (ws, h)

/-- Processing of one requested root package: resolve (wrapping a resolver
error as `listPackages: ...`), expand, then copy.  Returns
(writes, warnings, ignored imports, halt). -/
def runRootM (S m dist : Str) (proc : Str → ProcResult) (stat : Str → StatR)
    (readO : Str → Option Str) (writeO : Str → Str → Str → Option Str)
    (root : Str) : List (Str × Str) × List Str × List Str × Halt :=
  match resolverOf proc root with
  | Except.error e => ([], [], [], Halt.err (chs "listPackages: " ++ e))
  | Except.ok listPkgs =>
    match expandM stat (resolverOf proc) listPkgs with
    | Except.error e => ([], [], [], Halt.err e)
    | Except.ok (pkgs, ws, igs) =>
      match copyPhaseM S m dist readO writeO stat (resolverOf proc) pkgs with
      | (wr, h) => (wr, ws, igs, h)

/-- `run`'s outer loop over the comma-separated root packages: roots are
processed in order and the first non-ok outcome stops the loop.  Returns the
list of roots that were processed and the final halt. -/
def runM (S m dist : Str) (proc : Str → ProcResult) (stat : Str → StatR)
    (readO : Str → Option Str) (writeO : Str → Str → Str → Option Str) :
    List Str → List Str × Halt
  | [] => ([], Halt.ok)
  | r :: rs =>
    match (runRootM S m dist proc stat readO writeO r).2.2.2 with
    | Halt.ok =>
      let (tr, h) := runM S m dist proc stat readO writeO rs
      (r :: tr, h)
    | h => ([r], h)

/-- `main`: exit status 0 on success, 1 when `run` returns an error; a panic
kills the process with a non-zero status outside `main`'s error handling. -/
def mainExit : Halt → Nat
  | Halt.ok => 0
  | Halt.err _ => 1
  | Halt.panicked _ => 2

/-- `true` iff an `Except` value is a success. -/
def isOkE {α β : Type} : Except α β → Bool
  | Except.ok _ => true
  | Except.error _ => false

/-- Resolver-call failure condition: pipe creation failed, the process could
not be started, the output stream could not be decoded, or the process exited
non-zero. -/
def procFails : ProcResult → Prop
  | ProcResult.pipeFail _ => True
  | ProcResult.startFail _ => True
  | ProcResult.ran _ de ee _ => de ≠ none ∨ ee ≠ none

/-- Prepend one warning to the warning component of an expansion result. -/
def withWarn (w : Str) :
    Except Str (List Package × List Str × List Str) →
    Except Str (List Package × List Str × List Str)
  | Except.error e => Except.error e
  | Except.ok (ps, ws, igs) => Except.ok (ps, w :: ws, igs)

/-- Packages reachable from a root query by transitively following
restricted-classified import edges through the resolver (the closure the
specification describes). -/
inductive Reaches (res : Str → Except Str (List Package)) : Str → Package → Prop
  | base {q : Str} {p : Package} {pkgs : List Package} :
      res q = Except.ok pkgs → p ∈ pkgs → Reaches res q p
  | step {q : Str} {p p2 : Package} {imp : Str} {pkgs : List Package} :
      Reaches res q p → imp ∈ p.imports → restricted imp = true →
      res imp = Except.ok pkgs → p2 ∈ pkgs → Reaches res q p2

/-- Specification-side description of what the first loop of `run` actually
selects: each root descriptor whose directory exists, followed by the resolver
results for each of its direct restricted-classified imports, in order; deeper
imports are not followed and nothing is deduplicated. -/
def selectedSpec (stat : Str → StatR) (res : Str → List Package)
    (listPkgs : List Package) : List Package :=
  (listPkgs.filter (fun p => ¬ stat p.dir = StatR.notExist)).flatMap
    (fun p => p :: (p.imports.filter (fun i => restricted i)).flatMap res)

/-- Specification-side warnings of the first loop of `run`. -/
def warnSpec (stat : Str → StatR) (listPkgs : List Package) : List Str :=
  (listPkgs.filter (fun p => stat p.dir = StatR.notExist)).map
    (fun p => warnMsg p.dir)

/-- Specification-side ignored (non-restricted) imports of the first loop. -/
def ignoreSpec (stat : Str → StatR) (listPkgs : List Package) : List Str :=
  (listPkgs.filter (fun p => ¬ stat p.dir = StatR.notExist)).flatMap
    (fun p => p.imports.filter (fun i => ¬ restricted i))

/-- The substitution-rule keys that prefix-match a directory. -/
def matchingRules (S d : Str) : List (Str × Str) :=
  (rules S).filter (fun r => r.1.isPrefixOf d)

/-- Destination directories an arbitrary-order rule list would write a file of
directory `d` to. -/
def dstDirs (S d : Str) (l : List (Str × Str)) : List Str :=
  l.filterMap (fun r =>
    if r.1.isPrefixOf d then some (dropPfx (replaceAll d r.1 r.2) S) else none)

/-- The six rule keys without the `gorootSrc` base, as literal strings. -/
def sixTails : List Str :=
  [ chs "cmd/asm/internal", chs "cmd/compile/internal", chs "cmd/go/internal",
    chs "cmd/link/internal", chs "cmd/internal", chs "internal" ]

/-- Concrete `gorootSrc` used in the evaluation fixtures. -/
def srcRoot : Str := chs "/go/src"

/-- Concrete destination module path used in the evaluation fixtures. -/
def modPath : Str := chs "example.com/x"

/-- Concrete `flagDist` used in the evaluation fixtures. -/
def distDir : Str := chs "/dst"

/-- A restricted package with one regular source file. -/
def pkgFoo : Package :=
  { dir := chs "/go/src/internal/foo", importPath := chs "internal/foo",
    goFiles := [chs "a.go"] }

/-- A package whose source set contains the sentinel generated filename. -/
def pkgZ : Package :=
  { dir := chs "/go/src/internal/cpu", importPath := chs "internal/cpu",
    goFiles := [chs "zbootstrap.go"] }

/-- Chain fixture for the closure claim: `a` imports `b`, `b` imports `c`. -/
def pkgA : Package :=
  { dir := chs "/go/src/internal/a", importPath := chs "internal/a",
    imports := [chs "internal/b"], goFiles := [chs "a.go"] }

/-- Second element of the chain fixture. -/
def pkgB : Package :=
  { dir := chs "/go/src/internal/b", importPath := chs "internal/b",
    imports := [chs "internal/c"], goFiles := [chs "b.go"] }

/-- Third element of the chain fixture, two restricted edges from the root. -/
def pkgC : Package :=
  { dir := chs "/go/src/internal/c", importPath := chs "internal/c",
    goFiles := [chs "c.go"] }

/-- Resolver for the chain fixture. -/
def resChain : Str → Except Str (List Package) := fun q =>
  if q = chs "internal/a" then Except.ok [pkgA]
  else if q = chs "internal/b" then Except.ok [pkgB]
  else if q = chs "internal/c" then Except.ok [pkgC]
  else Except.ok []

/-- Stat oracle that reports every path as existing. -/
def statAll : Str → StatR := fun _ => StatR.okR

/-- Stat oracle for the idempotence fixture: the mapped destination directory
of `pkgFoo` already exists; everything else is absent. -/
def statExistsDst : Str → StatR := fun d =>
  if d = chs "/dst/internal/foo" then StatR.okR else StatR.notExist

/-- Resolver that maps `pkgFoo`'s directory query to `pkgFoo` itself. -/
def resFoo : Str → Except Str (List Package) := fun q =>
  if q = chs "/go/src/internal/foo" then Except.ok [pkgFoo] else Except.ok []

/-- Read oracle that always succeeds with a fixed file body. -/
def readAll : Str → Option Str := fun _ => some (chs "package foo\n")

/-- Read oracle that always fails. -/
def readNone : Str → Option Str := fun _ => none

/-- Write oracle that always succeeds. -/
def writeAll : Str → Str → Str → Option Str := fun _ _ _ => none

/-- A descriptor whose record carries a per-package load error. -/
def pkgLoadErr : Package :=
  { importPath := chs "internal/broken", err := some (chs "load error") }

/-- Subprocess oracle whose start always fails. -/
def procBoom : Str → ProcResult := fun _ => ProcResult.startFail (chs "boom")

/-- A descriptor whose directory is missing on disk. -/
def pkgGone : Package :=
  { dir := chs "/go/src/internal/gone", importPath := chs "internal/gone" }

/-- Stat oracle that reports every path as missing. -/
def statNone : Str → StatR := fun _ => StatR.notExist

/-- Resolver that always answers with an empty record list. -/
def resEmpty : Str → Except Str (List Package) := fun _ => Except.ok []

/-- A normal path component: non-empty, not `.` or `..`, and containing no
separator.  All components of the fixed rule-table tails are normal. -/
def normalComp (c : Str) : Prop :=
  c ≠ [] ∧ c ≠ ['.'] ∧ c ≠ ['.', '.'] ∧ '/' ∉ c

instance normalCompDec (c : Str) : Decidable (normalComp c) := by
  unfold normalComp
  infer_instance

/-- The part of every rule key `Join(gorootSrc, tail...)` contributed by
`gorootSrc`: its cleaned form followed by a separator when non-trivial.
Every key of `rules S` is `cleanBase S` followed by the literal tail. -/
def cleanBase (S : Str) : Str :=
  if S = [] then []
  else
    let rooted := S.head? = some '/'
    match cleanComps rooted [] (splitOnChar '/' S) with
    | [] => if rooted then ['/'] else []
    | B => (if rooted then ['/'] else []) ++ interJoin B ++ ['/']

lemma replaceAllAux_id_of_no_occ (pat rep : Str) :
    ∀ (n : Nat) (s : Str), ¬ pat <:+: s → replaceAllAux pat rep n s = s := by
  intro n
  induction n with
  | zero => intro s _; cases s <;> rfl
  | succ n ih =>
    intro s h
    cases s with
    | nil => rfl
    | cons c cs =>
      rw [replaceAllAux, if_neg, ih cs (fun hi => h (List.infix_cons hi))]
      rintro ⟨hne, hpf⟩
      exact h (List.IsPrefix.isInfix (List.isPrefixOf_iff_prefix.mp hpf))

lemma replaceAll_id_of_no_occ (s pat rep : Str) (h : ¬ pat <:+: s) :
    replaceAll s pat rep = s :=
  replaceAllAux_id_of_no_occ pat rep s.length s h

/-- C1: the import-literal rewrite is claimed to replace only the leading
matched restricted-root segment of an import path and to leave any
non-leading occurrence (such as `"mything/internal/foo"`) unchanged.  The
code instead performs a whole-body `strings.ReplaceAll`, so the non-leading
occurrence is rewritten: with module `example.com/x` the body
`mything/internal/foo` becomes `mything/example.com/x/foo` rather than
staying unchanged. -/
theorem rewrite_hits_nonleading_occurrence :
    rewriteBody (chs "example.com/x") (chs "mything/internal/foo") =
      chs "mything/example.com/x/foo" ∧
    ¬ rewriteBody (chs "example.com/x") (chs "mything/internal/foo") =
      chs "mything/internal/foo" := by
  exact ⟨by decide, by decide⟩

/-- C6 counterexample: mapping an already-mapped path a second time is not
always a no-op.  With module path `myinternal`, the literal `internal/foo`
maps to `myinternal/foo`, which still matches the `internal/` rule, so a
second application rewrites it again (to `mymyinternal/foo`). -/
theorem mapping_not_idempotent_cex :
    ¬ rewriteBody (chs "myinternal")
        (rewriteBody (chs "myinternal") (chs "internal/foo")) =
      rewriteBody (chs "myinternal") (chs "internal/foo") := by
  decide

/-- C6 (amended): a second application of the import-literal rewrite is a
no-op whenever no substitution pattern matches the output of the first
application, i.e. whenever the string `internal/` (which every table pattern
contains) does not occur in the once-rewritten body.  This holds in the
intended configuration but can fail, e.g. when the module path itself
contains `internal`. -/
theorem mapping_idempotent_when_unmatched (m body : Str)
    (h : ¬ (chs "internal/") <:+: rewriteBody m body) :
    rewriteBody m (rewriteBody m body) = rewriteBody m body := by
  have h1 : ¬ (chs "cmd/asm/internal/") <:+: rewriteBody m body := fun hi =>
    h (List.IsInfix.trans (by decide) hi)
  have h2 : ¬ (chs "cmd/compile/internal/") <:+: rewriteBody m body := fun hi =>
    h (List.IsInfix.trans (by decide) hi)
  have h3 : ¬ (chs "cmd/go/internal/") <:+: rewriteBody m body := fun hi =>
    h (List.IsInfix.trans (by decide) hi)
  have h4 : ¬ (chs "cmd/link/internal/") <:+: rewriteBody m body := fun hi =>
    h (List.IsInfix.trans (by decide) hi)
  have h5 : ¬ (chs "cmd/internal/") <:+: rewriteBody m body := fun hi =>
    h (List.IsInfix.trans (by decide) hi)
  set out := rewriteBody m body with hdef
  show replaceAll (replaceAll (replaceAll (replaceAll (replaceAll
      (replaceAll out (chs "cmd/asm/internal/") (goJoin [m, chs "asm/"]))
      (chs "cmd/compile/internal/") (goJoin [m, chs "compile/"]))
      (chs "cmd/go/internal/") (goJoin [m, chs "go/"]))
      (chs "cmd/link/internal/") (goJoin [m, chs "link/"]))
      (chs "cmd/internal/") (m ++ ['/']))
      (chs "internal/") (m ++ ['/']) = out
  rw [replaceAll_id_of_no_occ _ _ _ h1, replaceAll_id_of_no_occ _ _ _ h2,
    replaceAll_id_of_no_occ _ _ _ h3, replaceAll_id_of_no_occ _ _ _ h4,
    replaceAll_id_of_no_occ _ _ _ h5, replaceAll_id_of_no_occ _ _ _ h]

/-- Witness for the amended C6 at the specification's own example: module
`example.com/x` and an import of `internal/foo`. -/
theorem mapping_idempotent_when_unmatched_witness :
    rewriteBody (chs "example.com/x")
        (rewriteBody (chs "example.com/x") (chs "import \"internal/foo\"\n")) =
      rewriteBody (chs "example.com/x") (chs "import \"internal/foo\"\n") :=
  mapping_idempotent_when_unmatched (chs "example.com/x")
    (chs "import \"internal/foo\"\n") (by decide)

/-- C2: a destination directory that already exists is claimed to make the
tool skip the package entirely (idempotent re-run).  The code's condition
`err != nil && !os.IsNotExist(err)` skips only on an unusual stat error; when
the stat succeeds because the directory exists, the package is processed and
its files are rewritten again.  Here the mapped destination of `pkgFoo`
exists (`os.Stat` returns success), yet the copy phase performs a write. -/
theorem existing_destination_still_written :
    statExistsDst (goJoin [distDir, dropPfx pkgFoo.dir srcRoot]) = StatR.okR ∧
    copyPhaseM srcRoot modPath distDir readAll writeAll statExistsDst resFoo
        [pkgFoo] = ([(chs "/foo", chs "a.go")], Halt.ok) :=
  ⟨by decide, by rfl⟩

/-- C4: the sentinel generated filename `zbootstrap.go` is claimed never to
reach the destination tree.  `sourceFiles` returns full joined paths, while
`copyInternal` compares each path against the bare name `"zbootstrap.go"`,
so the skip never fires for a package with a non-empty directory and the
sentinel file is written. -/
theorem sentinel_file_written :
    pkgZ.goFiles = [chs "zbootstrap.go"] ∧
    copyInternalM srcRoot modPath readAll writeAll pkgZ =
      ([(chs "/cpu", chs "zbootstrap.go")], Halt.ok) ∧
    chs "zbootstrap.go" ∈
      (copyInternalM srcRoot modPath readAll writeAll pkgZ).1.map Prod.snd :=
  ⟨by decide, by rfl, by decide⟩

/-- C3 counterexample: the selected set is claimed to equal the transitive
restricted closure of the root.  In the chain `internal/a → internal/b →
internal/c` the code selects only `[pkgA, pkgB]` — the imports of packages
reached through one edge are never walked — while `pkgC` is reachable via
restricted edges. -/
theorem closure_not_transitive_cex :
    expandM statAll resChain [pkgA] = Except.ok ([pkgA, pkgB], [], []) ∧
    Reaches resChain (chs "internal/a") pkgC ∧
    pkgC ∉ [pkgA, pkgB] := by
  refine ⟨by rfl, ?_, by decide⟩
  have h1 : Reaches resChain (chs "internal/a") pkgA :=
    @Reaches.base resChain (chs "internal/a") pkgA [pkgA] (by rfl) (by simp)
  have h2 : Reaches resChain (chs "internal/a") pkgB :=
    @Reaches.step resChain (chs "internal/a") pkgA pkgB (chs "internal/b")
      [pkgB] h1 (by simp [pkgA]) (by decide) (by rfl) (by simp)
  exact @Reaches.step resChain (chs "internal/a") pkgB pkgC (chs "internal/c")
    [pkgC] h2 (by simp [pkgB]) (by decide) (by rfl) (by simp)

lemma expandImports_total (res : Str → List Package) :
    ∀ imps : List Str, expandImports (fun q => Except.ok (res q)) imps =
      Except.ok ((imps.filter (fun i => restricted i)).flatMap res,
        imps.filter (fun i => ¬ restricted i)) := by
  intro imps
  induction imps with
  | nil => rfl
  | cons imp rest ih =>
    by_cases h : restricted imp
    · simp [expandImports, h, ih, List.filter_cons]
    · simp [expandImports, h, ih, List.filter_cons]

/-- C3 (amended): with a total resolver, the set selected for copying is
exactly the depth-one expansion — each root-resolved descriptor whose
directory exists, followed in order by the resolver results for its direct
restricted-classified imports.  Imports of the packages reached through one
edge are not walked, and no deduplication by import path is performed, so
duplicates can occur and deeper restricted dependencies are missed. -/
theorem expand_is_depth_one (stat : Str → StatR) (res : Str → List Package) :
    ∀ listPkgs : List Package,
      expandM stat (fun q => Except.ok (res q)) listPkgs =
        Except.ok (selectedSpec stat res listPkgs, warnSpec stat listPkgs,
          ignoreSpec stat listPkgs) := by
  intro l
  induction l with
  | nil => rfl
  | cons p rest ih =>
    by_cases h : stat p.dir = StatR.notExist
    · simp [expandM, h, ih, selectedSpec, warnSpec, ignoreSpec, List.filter_cons]
    · simp [expandM, h, expandImports_total, ih, selectedSpec, warnSpec,
        ignoreSpec, List.filter_cons]

/-- C7: the resolver call fails exactly when the subprocess pipe cannot be
created or the process cannot be started, the record stream cannot be
decoded, or the process exits non-zero; per-package load errors embedded in
the records never fail the call; and an error produced after the process ran
with a non-empty captured diagnostic stream carries that stream appended
after a newline. -/
theorem listPackages_error_iff (pr : ProcResult) :
    (isOkE (listPackagesM pr) = false ↔ procFails pr) ∧
    (∀ pkgs st, pr = ProcResult.ran pkgs none none st →
      listPackagesM pr = Except.ok pkgs) ∧
    (∀ e, listPackagesM pr = Except.error e →
      ∀ pkgs de ee st, pr = ProcResult.ran pkgs de ee st → ¬ st = [] →
        ∃ base, e = base ++ '\n' :: st) := by
  refine ⟨?_, ?_, ?_⟩
  · cases pr with
    | pipeFail e => simp [listPackagesM, isOkE, procFails]
    | startFail e => simp [listPackagesM, isOkE, procFails]
    | ran pkgs de ee st =>
      cases de with
      | some e => simp [listPackagesM, isOkE, procFails]
      | none =>
        cases ee with
        | some e => simp [listPackagesM, isOkE, procFails]
        | none => simp [listPackagesM, isOkE, procFails]
  · intro pkgs st hpr
    subst hpr
    rfl
  · intro e he pkgs de ee st hpr hst
    subst hpr
    cases de with
    | some d =>
      simp [listPackagesM, attachStderr, hst] at he
      exact ⟨d, he.symm⟩
    | none =>
      cases ee with
      | some x =>
        simp [listPackagesM, attachStderr, hst] at he
        exact ⟨x, he.symm⟩
      | none => simp [listPackagesM] at he

/-- Witness for C7: a record carrying a per-package load error still yields a
successful call, and a decode failure with captured stderr attaches it. -/
theorem listPackages_error_iff_witness :
    listPackagesM (ProcResult.ran [pkgLoadErr] none none []) =
      Except.ok [pkgLoadErr] ∧
    (∃ base, attachStderr (chs "oops") (chs "bad json") =
      base ++ '\n' :: chs "oops") := by
  refine ⟨(listPackages_error_iff _).2.1 [pkgLoadErr] [] rfl, ?_⟩
  exact (listPackages_error_iff
      (ProcResult.ran [] (some (chs "bad json")) none (chs "oops"))).2.2
    (attachStderr (chs "oops") (chs "bad json")) rfl [] (some (chs "bad json"))
    none (chs "oops") rfl (by decide)

lemma expandImports_all_ok (res : Str → Except Str (List Package))
    (h : ∀ q, ∃ l, res q = Except.ok l) :
    ∀ imps, ∃ out, expandImports res imps = Except.ok out := by
  intro imps
  induction imps with
  | nil => exact ⟨([], []), rfl⟩
  | cons imp rest ih =>
    obtain ⟨⟨ps, igs⟩, hout⟩ := ih
    by_cases hr : restricted imp
    · obtain ⟨l, hl⟩ := h imp
      exact ⟨(l ++ ps, igs), by rw [expandImports, if_pos hr, hl, hout]⟩
    · exact ⟨(ps, imp :: igs), by rw [expandImports, if_neg hr, hout]⟩

lemma expandM_all_ok (stat : Str → StatR) (res : Str → Except Str (List Package))
    (h : ∀ q, ∃ l, res q = Except.ok l) :
    ∀ l, ∃ out, expandM stat res l = Except.ok out := by
  intro l
  induction l with
  | nil => exact ⟨([], [], []), rfl⟩
  | cons p rest ih =>
    obtain ⟨⟨ps, ws, igs⟩, hout⟩ := ih
    by_cases hp : stat p.dir = StatR.notExist
    · exact ⟨(ps, warnMsg p.dir :: ws, igs), by rw [expandM, if_pos hp, hout]⟩
    · obtain ⟨⟨subs, igs1⟩, hsub⟩ := expandImports_all_ok res h p.imports
      exact ⟨(p :: subs ++ ps, ws, igs1 ++ igs),
        by rw [expandM, if_neg hp, hsub, hout]⟩

/-- C8: a descriptor whose directory does not exist is skipped — the
expansion result is that of the remaining descriptors with only the warning
for the missing directory prepended — and with a total resolver the
expansion always succeeds regardless of the stat oracle, so a missing
directory never aborts the run with an error. -/
theorem missing_dir_skipped (stat : Str → StatR)
    (res : Str → Except Str (List Package)) (p : Package) (rest : List Package)
    (h : stat p.dir = StatR.notExist) :
    expandM stat res (p :: rest) =
      withWarn (warnMsg p.dir) (expandM stat res rest) ∧
    ((∀ q, ∃ l, res q = Except.ok l) →
      ∀ l, ∃ out, expandM stat res l = Except.ok out) := by
  refine ⟨?_, fun hq => expandM_all_ok stat res hq⟩
  rw [expandM, if_pos h]
  cases hrest : expandM stat res rest with
  | error e => rfl
  | ok out =>
    obtain ⟨ps, ws, igs⟩ := out
    rfl

/-- Witness for C8: a missing descriptor produces only a warning. -/
theorem missing_dir_skipped_witness :
    expandM statNone resEmpty [pkgGone] =
      Except.ok ([], [warnMsg (chs "/go/src/internal/gone")], []) := by
  have h := (missing_dir_skipped statNone resEmpty pkgGone [] rfl).1
  rw [h]
  rfl

lemma runM_first_error (S m dist : Str) (proc : Str → ProcResult)
    (stat : Str → StatR) (readO : Str → Option Str)
    (writeO : Str → Str → Str → Option Str) (r : Str) (roots2 : List Str)
    (e : Str) :
    ∀ roots1 : List Str,
      (∀ r' ∈ roots1,
        (runRootM S m dist proc stat readO writeO r').2.2.2 = Halt.ok) →
      (runRootM S m dist proc stat readO writeO r).2.2.2 = Halt.err e →
      runM S m dist proc stat readO writeO (roots1 ++ r :: roots2) =
        (roots1 ++ [r], Halt.err e) := by
  intro roots1
  induction roots1 with
  | nil =>
    intro _ herr
    rw [List.nil_append, runM, herr]
    rfl
  | cons a as ih =>
    intro hok herr
    have ha : (runRootM S m dist proc stat readO writeO a).2.2.2 = Halt.ok :=
      hok a (by simp)
    rw [List.cons_append, runM, ha,
      ih (fun r' hr' => hok r' (by simp [hr'])) herr]
    rfl

/-- C9: the first root whose processing halts with an error stops the whole
run — the processed-roots trace is exactly the successful roots followed by
the failing one, no later root is processed, the error is surfaced as the
run's result, and `main` exits with status 1. -/
theorem first_error_stops_run (S m dist : Str) (proc : Str → ProcResult)
    (stat : Str → StatR) (readO : Str → Option Str)
    (writeO : Str → Str → Str → Option Str) (roots1 : List Str) (r : Str)
    (roots2 : List Str) (e : Str)
    (hok : ∀ r' ∈ roots1,
      (runRootM S m dist proc stat readO writeO r').2.2.2 = Halt.ok)
    (herr : (runRootM S m dist proc stat readO writeO r).2.2.2 = Halt.err e) :
    runM S m dist proc stat readO writeO (roots1 ++ r :: roots2) =
      (roots1 ++ [r], Halt.err e) ∧
    mainExit (runM S m dist proc stat readO writeO (roots1 ++ r :: roots2)).2
      = 1 := by
  have h := runM_first_error S m dist proc stat readO writeO r roots2 e roots1
    hok herr
  exact ⟨h, by rw [h]; rfl⟩

/-- Witness for C9: with a resolver whose start always fails, the first root
errors (wrapped as `listPackages: ...`) and the second root is never
processed. -/
theorem first_error_stops_run_witness :
    runM srcRoot modPath distDir procBoom statAll readAll writeAll
        [chs "internal/x", chs "internal/y"] =
      ([chs "internal/x"], Halt.err (chs "listPackages: boom")) := by
  have h := first_error_stops_run srcRoot modPath distDir procBoom statAll
    readAll writeAll [] (chs "internal/x") [chs "internal/y"]
    (chs "listPackages: boom") (fun r' hr' => absurd hr' (List.not_mem_nil r'))
    (by rfl)
  exact h.1

lemma ruleLoop_err_from_write (S : Str) (writeO : Str → Str → Str → Option Str)
    (d name body : Str) :
    ∀ (l : List (Str × Str)) (e : Str),
      (ruleLoop S writeO d name body l).2 = Halt.err e →
      ∃ dd nn bb, writeO dd nn bb = some e := by
  intro l
  induction l with
  | nil => intro e h; simp [ruleLoop] at h
  | cons rp rs ih =>
    obtain ⟨imppath, fixpath⟩ := rp
    intro e h
    rw [ruleLoop] at h
    dsimp only at h
    by_cases hp : imppath.isPrefixOf d
    · rw [if_pos hp] at h
      cases hw : writeO (dropPfx (replaceAll d imppath fixpath) S) name body with
      | some e2 =>
        rw [hw] at h
        simp at h
        exact ⟨_, _, _, h ▸ hw⟩
      | none =>
        rw [hw] at h
        cases hrr : ruleLoop S writeO d name body rs with
        | mk ws hh =>
          rw [hrr] at h
          simp at h
          exact ih e (by rw [hrr]; exact h)
    · rw [if_neg hp] at h
      exact ih e h

lemma fileLoop_err_from_write (S m : Str) (readO : Str → Option Str)
    (writeO : Str → Str → Str → Option Str) (pkgDir : Str) :
    ∀ (files : List Str) (e : Str),
      (fileLoop S m readO writeO pkgDir files).2 = Halt.err e →
      ∃ dd nn bb, writeO dd nn bb = some e := by
  intro files
  induction files with
  | nil => intro e h; simp [fileLoop] at h
  | cons path rest ih =>
    intro e h
    rw [fileLoop] at h
    by_cases hz : path = chs "zbootstrap.go"
    · rw [if_pos hz] at h
      exact ih e h
    · rw [if_neg hz] at h
      cases hr : readO path with
      | none => rw [hr] at h; simp at h
      | some raw =>
        rw [hr] at h
        dsimp only at h
        cases hrl : ruleLoop S writeO pkgDir (baseName path)
            (rewriteBody m raw) (rules S) with
        | mk ws hh =>
          rw [hrl] at h
          cases hh with
          | ok =>
            cases hfl : fileLoop S m readO writeO pkgDir rest with
            | mk ws2 h2 =>
              rw [hfl] at h
              simp at h
              exact ih e (by rw [hfl]; exact h)
          | err e2 =>
            simp at h
            exact ruleLoop_err_from_write S writeO pkgDir (baseName path)
              (rewriteBody m raw) (rules S) e (by rw [hrl]; simp [h])
          | panicked p => simp at h

/-- C10: `copyInternal`'s error return only ever reports a `writeFile`
failure — never a read failure — and when reading fails the file-reading
step panics: if every read fails, processing the first non-sentinel source
file ends in a panic carrying that path. -/
theorem read_failure_panics (S m : Str) (readO : Str → Option Str)
    (writeO : Str → Str → Str → Option Str) (pkg : Package) :
    (∀ e, (copyInternalM S m readO writeO pkg).2 = Halt.err e →
      ∃ d n b, writeO d n b = some e) ∧
    ((∀ q, readO q = none) → ∀ f fs, sourceFiles pkg = f :: fs →
      ¬ f = chs "zbootstrap.go" →
      (copyInternalM S m readO writeO pkg).2 = Halt.panicked f) := by
  constructor
  · intro e h
    exact fileLoop_err_from_write S m readO writeO pkg.dir (sourceFiles pkg) e h
  · intro hread f fs hsf hz
    rw [copyInternalM, hsf, fileLoop, if_neg hz, hread f]

/-- Witness for C10: with an always-failing read oracle, copying `pkgFoo`
panics on its first source file instead of returning an error. -/
theorem read_failure_panics_witness :
    (copyInternalM srcRoot modPath readNone writeAll pkgFoo).2 =
      Halt.panicked (chs "/go/src/internal/foo/a.go") :=
  (read_failure_panics srcRoot modPath readNone writeAll pkgFoo).2
    (fun _ => rfl) (chs "/go/src/internal/foo/a.go") [] (by rfl) (by decide)

lemma splitOn_ne_nil (c : Char) : ∀ s : Str, splitOnChar c s ≠ [] := by
  intro s
  induction s with
  | nil => simp [splitOnChar]
  | cons x xs ih =>
    rw [splitOnChar]
    by_cases hx : x = c
    · simp [hx]
    · rw [if_neg hx]
      cases h : splitOnChar c xs with
      | nil => simp
      | cons a t => simp

lemma splitOn_append (c : Char) (b : Str) :
    ∀ a : Str, splitOnChar c (a ++ c :: b) = splitOnChar c a ++ splitOnChar c b := by
  intro a
  induction a with
  | nil => simp [splitOnChar]
  | cons x xs ih =>
    by_cases hx : x = c
    · subst hx
      rw [List.cons_append, splitOnChar, if_pos rfl, ih]
      rw [splitOnChar, if_pos rfl]
      rfl
    · rw [List.cons_append, splitOnChar, if_neg hx, ih]
      cases hsp : splitOnChar c xs with
      | nil => exact absurd hsp (splitOn_ne_nil c xs)
      | cons h0 t0 =>
        rw [splitOnChar, if_neg hx, hsp]
        rfl

lemma splitOn_no_sep : ∀ x : Str, '/' ∉ x → splitOnChar '/' x = [x] := by
  intro x
  induction x with
  | nil => intro _; rfl
  | cons cch cs ih =>
    intro h
    rw [splitOnChar,
      if_neg (fun hc => h (by rw [hc]; exact List.mem_cons_self _ _))]
    rw [ih (fun hm => h (List.mem_cons_of_mem cch hm))]

lemma interJoin_two (x : Str) (y : Str) (ys : List Str) :
    interJoin (x :: y :: ys) = x ++ '/' :: interJoin (y :: ys) := rfl

lemma splitOn_interJoin : ∀ tc : List Str, tc ≠ [] → (∀ x ∈ tc, '/' ∉ x) →
    splitOnChar '/' (interJoin tc) = tc := by
  intro tc
  induction tc with
  | nil => intro h; exact absurd rfl h
  | cons x xs ih =>
    intro _ hmem
    cases xs with
    | nil => exact splitOn_no_sep x (hmem x (by simp))
    | cons y ys =>
      rw [interJoin_two, splitOn_append, splitOn_no_sep x (hmem x (by simp)),
        ih (by simp) (fun z hz => hmem z (List.mem_cons_of_mem x hz))]
      rfl

lemma interJoin_append (tc : List Str) (htc : tc ≠ []) :
    ∀ B : List Str, B ≠ [] →
      interJoin (B ++ tc) = interJoin B ++ '/' :: interJoin tc := by
  intro B
  induction B with
  | nil => intro h; exact absurd rfl h
  | cons x xs ih =>
    intro _
    cases xs with
    | nil =>
      cases tc with
      | nil => exact absurd rfl htc
      | cons t ts => rfl
    | cons y ys =>
      have h1 : interJoin ((x :: y :: ys) ++ tc) =
          x ++ '/' :: interJoin ((y :: ys) ++ tc) := rfl
      rw [h1, ih (by simp), interJoin_two]
      simp

lemma interJoin_ne_nil (tc : List Str) (htc : tc ≠ [])
    (hh : ∀ x ∈ tc, x ≠ []) : interJoin tc ≠ [] := by
  cases tc with
  | nil => exact absurd rfl htc
  | cons x xs =>
    cases xs with
    | nil => exact hh x (by simp)
    | cons y ys =>
      rw [interJoin_two]
      intro hcontra
      cases hx : x with
      | nil => exact hh x (by simp) hx
      | cons a t => rw [hx] at hcontra; simp at hcontra

lemma cleanComps_append (r : Bool) (l2 : List Str) :
    ∀ (l1 : List Str) (st : List Str),
      cleanComps r st (l1 ++ l2) = cleanComps r (cleanComps r st l1) l2 := by
  intro l1
  induction l1 with
  | nil => intro st; rfl
  | cons c rest ih =>
    intro st
    rw [List.cons_append, cleanComps, cleanComps]
    split_ifs <;> apply ih

lemma cleanComps_normal (r : Bool) :
    ∀ (l : List Str) (st : List Str),
      (∀ c ∈ l, ¬(c = [] ∨ c = ['.']) ∧ c ≠ ['.', '.']) →
      cleanComps r st l = st ++ l := by
  intro l
  induction l with
  | nil => intro st _; simp [cleanComps]
  | cons c rest ih =>
    intro st h
    rw [cleanComps, if_neg (h c (by simp)).1, if_neg]
    · rw [ih (st ++ [c]) (fun x hx => h x (List.mem_cons_of_mem c hx))]
      simp
    · exact fun hdd => (h c (by simp)).2 hdd

lemma head_append_of_ne_nil (x t : Str) (hx : x ≠ []) :
    (x ++ t).head? = x.head? := by
  cases x with
  | nil => exact absurd rfl hx
  | cons a s => rfl

lemma interJoin_head_ne_sep (tc : List Str) (htc : tc ≠ [])
    (hn : ∀ c ∈ tc, normalComp c) : (interJoin tc).head? ≠ some '/' := by
  cases tc with
  | nil => exact absurd rfl htc
  | cons t0 ts =>
    have h0 : t0 ≠ [] := (hn t0 (by simp)).1
    have hs : '/' ∉ t0 := (hn t0 (by simp)).2.2.2
    have hform : (interJoin (t0 :: ts)).head? = t0.head? := by
      cases ts with
      | nil => rfl
      | cons y ys => rw [interJoin_two, head_append_of_ne_nil t0 _ h0]
    rw [hform]
    cases t0 with
    | nil => exact absurd rfl h0
    | cons a s =>
      simp only [List.head?_cons]
      intro ha
      apply hs
      rw [Option.some_inj] at ha
      rw [ha]
      exact List.mem_cons_self _ _

lemma goClean_normal (tc : List Str) (htc : tc ≠ [])
    (hn : ∀ c ∈ tc, normalComp c) : goClean (interJoin tc) = interJoin tc := by
  have hne : interJoin tc ≠ [] :=
    interJoin_ne_nil tc htc (fun x hx => (hn x hx).1)
  have hhead : (interJoin tc).head? ≠ some '/' :=
    interJoin_head_ne_sep tc htc hn
  unfold goClean
  rw [if_neg hne]
  dsimp only
  rw [decide_eq_false hhead]
  rw [splitOn_interJoin tc htc (fun x hx => (hn x hx).2.2.2)]
  rw [cleanComps_normal false tc []
    (fun c hc => ⟨fun hor => hor.elim (hn c hc).1 (hn c hc).2.1, (hn c hc).2.2.1⟩)]
  rw [List.nil_append, if_neg hhead, List.nil_append, if_neg hne]

lemma goClean_append_normal (S : Str) (hS : S ≠ []) (tc : List Str)
    (htc : tc ≠ []) (hn : ∀ c ∈ tc, normalComp c) :
    goClean (S ++ '/' :: interJoin tc) = cleanBase S ++ interJoin tc := by
  have hsne : S ++ '/' :: interJoin tc ≠ [] := by
    cases S with
    | nil => exact absurd rfl hS
    | cons a s => simp
  have hhead : (S ++ '/' :: interJoin tc).head? = S.head? :=
    head_append_of_ne_nil S _ hS
  have htcne : interJoin tc ≠ [] :=
    interJoin_ne_nil tc htc (fun x hx => (hn x hx).1)
  unfold goClean
  rw [if_neg hsne]
  dsimp only
  rw [hhead, splitOn_append,
    splitOn_interJoin tc htc (fun x hx => (hn x hx).2.2.2),
    cleanComps_append,
    cleanComps_normal _ tc _
      (fun c hc => ⟨fun hor => hor.elim (hn c hc).1 (hn c hc).2.1, (hn c hc).2.2.1⟩)]
  unfold cleanBase
  rw [if_neg hS]
  dsimp only
  cases hB : cleanComps (decide (S.head? = some '/')) [] (splitOnChar '/' S) with
  | nil =>
    rw [List.nil_append]
    by_cases hr : S.head? = some '/'
    · rw [if_pos hr]
      simp
    · rw [if_neg hr]
      simp [htcne]
  | cons b bs =>
    rw [interJoin_append tc htc (b :: bs) (by simp)]
    by_cases hr : S.head? = some '/'
    · rw [if_pos hr]
      simp
    · rw [if_neg hr]
      simp

lemma goJoin_cons_factor (S : Str) (tc : List Str) (htc : tc ≠ [])
    (hn : ∀ c ∈ tc, normalComp c) :
    goJoin (S :: tc) = cleanBase S ++ interJoin tc := by
  obtain ⟨t0, ts, rfl⟩ : ∃ t0 ts, tc = t0 :: ts := by
    cases tc with
    | nil => exact absurd rfl htc
    | cons a l => exact ⟨a, l, rfl⟩
  have ht0 : t0 ≠ [] := (hn t0 (by simp)).1
  by_cases hS : S = []
  · subst hS
    have h1 : goJoin ([] :: t0 :: ts) = goClean (interJoin (t0 :: ts)) := by
      unfold goJoin
      rw [List.dropWhile_cons, if_pos (by simp), List.dropWhile_cons,
        if_neg (by simp [ht0])]
    rw [h1, goClean_normal (t0 :: ts) htc hn]
    rw [cleanBase, if_pos rfl, List.nil_append]
  · have h1 : goJoin (S :: t0 :: ts) = goClean (interJoin (S :: t0 :: ts)) := by
      unfold goJoin
      rw [List.dropWhile_cons, if_neg (by simp [hS])]
    rw [h1, interJoin_two, goClean_append_normal S hS (t0 :: ts) htc hn]

lemma rules_keys_factor (S : Str) :
    (rules S).map Prod.fst = sixTails.map (fun t => cleanBase S ++ t) := by
  have g1 : goJoin [S, chs "cmd", chs "asm", chs "internal"] =
      cleanBase S ++ chs "cmd/asm/internal" := by
    rw [goJoin_cons_factor S _ (by simp) (by decide)]
    exact congrArg _ (by decide)
  have g2 : goJoin [S, chs "cmd", chs "compile", chs "internal"] =
      cleanBase S ++ chs "cmd/compile/internal" := by
    rw [goJoin_cons_factor S _ (by simp) (by decide)]
    exact congrArg _ (by decide)
  have g3 : goJoin [S, chs "cmd", chs "go", chs "internal"] =
      cleanBase S ++ chs "cmd/go/internal" := by
    rw [goJoin_cons_factor S _ (by simp) (by decide)]
    exact congrArg _ (by decide)
  have g4 : goJoin [S, chs "cmd", chs "link", chs "internal"] =
      cleanBase S ++ chs "cmd/link/internal" := by
    rw [goJoin_cons_factor S _ (by simp) (by decide)]
    exact congrArg _ (by decide)
  have g5 : goJoin [S, chs "cmd", chs "internal"] =
      cleanBase S ++ chs "cmd/internal" := by
    rw [goJoin_cons_factor S _ (by simp) (by decide)]
    exact congrArg _ (by decide)
  have g6 : goJoin [S, chs "internal"] = cleanBase S ++ chs "internal" := by
    rw [goJoin_cons_factor S _ (by simp) (by decide)]
    exact congrArg _ (by decide)
  simp only [rules, sixTails, List.map_cons, List.map_nil]
  rw [g1, g2, g3, g4, g5, g6]

lemma pfx_cancel {a x y : Str} (h : (a ++ x) <+: (a ++ y)) : x <+: y := by
  obtain ⟨t, ht⟩ := h
  rw [List.append_assoc] at ht
  exact ⟨t, List.append_cancel_left ht⟩

lemma at_most_one_match (A d : Str) :
    ∀ tails : List Str,
      tails.Pairwise (fun x y => ¬ x <+: y ∧ ¬ y <+: x) →
      ((tails.map (fun t => A ++ t)).filter
        (fun k => k.isPrefixOf d)).length ≤ 1 := by
  intro tails
  induction tails with
  | nil => intro _; simp
  | cons t ts ih =>
    intro hp
    rw [List.map_cons, List.filter_cons]
    by_cases hk : (A ++ t).isPrefixOf d = true
    · have hnil : (ts.map (fun u => A ++ u)).filter
          (fun k => k.isPrefixOf d) = [] := by
        rw [List.filter_eq_nil_iff]
        intro k hkmem
        obtain ⟨u, hu, rfl⟩ := List.mem_map.mp hkmem
        intro hk2
        have h1 : (A ++ t) <+: d := List.isPrefixOf_iff_prefix.mp hk
        have h2 : (A ++ u) <+: d := List.isPrefixOf_iff_prefix.mp hk2
        rcases List.prefix_or_prefix_of_prefix h1 h2 with hh | hh
        · exact ((List.pairwise_cons.mp hp).1 u hu).1 (pfx_cancel hh)
        · exact ((List.pairwise_cons.mp hp).1 u hu).2 (pfx_cancel hh)
      rw [if_pos hk, hnil]
      simp
    · rw [if_neg hk]
      exact ih (List.pairwise_cons.mp hp).2

lemma matchingRules_len (S d : Str) : (matchingRules S d).length ≤ 1 := by
  have hpair : sixTails.Pairwise (fun x y => ¬ x <+: y ∧ ¬ y <+: x) := by decide
  have h := at_most_one_match (cleanBase S) d sixTails hpair
  rw [← rules_keys_factor S] at h
  rw [List.filter_map, List.length_map] at h
  unfold matchingRules
  convert h using 2

lemma dstDirs_eq_map (S d : Str) :
    ∀ l : List (Str × Str), dstDirs S d l =
      (l.filter (fun r => (r.1).isPrefixOf d)).map
        (fun r => dropPfx (replaceAll d r.1 r.2) S) := by
  intro l
  induction l with
  | nil => rfl
  | cons r rs ih =>
    simp only [dstDirs] at ih ⊢
    rw [List.filterMap_cons, List.filter_cons]
    by_cases hp : (r.1).isPrefixOf d = true
    · simp only [hp, if_true, List.map_cons]
      exact congrArg _ ih
    · simp only [hp, Bool.false_eq_true, if_false]
      exact ih

lemma perm_eq_of_len_le_one {α : Type} {l1 l2 : List α} (h : l1.Perm l2)
    (hl : l2.length ≤ 1) : l1 = l2 := by
  cases l2 with
  | nil => exact h.eq_nil
  | cons a t =>
    cases t with
    | nil => exact List.perm_singleton.mp h
    | cons b u => simp at hl

lemma ruleLoop_no_match (S : Str) (writeO : Str → Str → Str → Option Str)
    (d name body : Str) :
    ∀ l : List (Str × Str), l.filter (fun r => (r.1).isPrefixOf d) = [] →
      ruleLoop S writeO d name body l = ([], Halt.ok) := by
  intro l
  induction l with
  | nil => intro _; rfl
  | cons rp rs ih =>
    intro h
    obtain ⟨imppath, fixpath⟩ := rp
    rw [List.filter_cons] at h
    by_cases hp : imppath.isPrefixOf d = true
    · rw [if_pos hp] at h
      simp at h
    · rw [if_neg hp] at h
      rw [ruleLoop, if_neg hp]
      exact ih h

/-- C5: for every `gorootSrc` and every package directory, at most one rule
of the substitution table prefix-matches the directory (the instantiated
keys are pairwise non-overlapping), so each source file is written to at
most one destination; the destinations produced are independent of the
order in which the Go map iterates the rules; and when no rule matches, the
rule loop writes nothing. -/
theorem rule_table_disjoint (S d : Str) :
    (matchingRules S d).length ≤ 1 ∧
    (∀ l, (rules S).Perm l → dstDirs S d l = dstDirs S d (rules S)) ∧
    (matchingRules S d = [] →
      ∀ (writeO : Str → Str → Str → Option Str) (name body : Str),
        ruleLoop S writeO d name body (rules S) = ([], Halt.ok)) := by
  refine ⟨matchingRules_len S d, ?_, ?_⟩
  · intro l hperm
    have hp : (dstDirs S d l).Perm (dstDirs S d (rules S)) :=
      (hperm.filterMap _).symm
    have hlen : (dstDirs S d (rules S)).length ≤ 1 := by
      rw [dstDirs_eq_map, List.length_map]
      exact matchingRules_len S d
    exact perm_eq_of_len_le_one hp hlen
  · intro hm writeO name body
    exact ruleLoop_no_match S writeO d name body (rules S) hm

/-- Witness for C5: reversing the rule order leaves the destination of
`pkgFoo`'s directory unchanged, and a directory outside every restricted
subtree is never written. -/
theorem rule_table_disjoint_witness :
    dstDirs srcRoot (chs "/go/src/internal/foo") (rules srcRoot).reverse =
      dstDirs srcRoot (chs "/go/src/internal/foo") (rules srcRoot) ∧
    ruleLoop srcRoot writeAll (chs "/elsewhere/pkg") (chs "a.go") (chs "x")
      (rules srcRoot) = ([], Halt.ok) := by
  constructor
  · exact (rule_table_disjoint srcRoot (chs "/go/src/internal/foo")).2.1
      (rules srcRoot).reverse (List.reverse_perm (rules srcRoot)).symm
  · exact (rule_table_disjoint srcRoot (chs "/elsewhere/pkg")).2.2 (by decide)
      writeAll (chs "a.go") (chs "x")
